import Mathlib

/-!
Verification of the internship-matching backend (`src/main.py`, `src/schemas.py`).

The core under scrutiny is the `score` closure and the ranking logic of the
`match_top` endpoint (src/main.py, lines 171-207).  The surrounding HTTP /
database plumbing carries no algorithmic content; the Matcher is embedded as a
pure function of the student's stored preference list, the internship catalog,
and the request limit, exactly as the spec factors it.

Numbers are modelled over `ℚ`; Python's `round(x, 4)` is modelled as
round-half-to-even at 4 decimal digits.
-/

namespace InternMatch

/-- Model of Python `str.lower()` (per-character case folding of the string's
characters), as applied in `[s.lower() for s in ...]` at src/main.py:179,184. -/
def pyLower (s : String) : String := String.mk (s.data.map Char.toLower)

/-- Internship record, from `class Internship` in src/schemas.py:12-18:
display fields plus the `skills` list used by scoring. -/
structure Internship where
  title : String
  company : String
  description : Option String := none
  location : Option String := none
  stipend : Option String := none
  skills : List String := []
deriving DecidableEq, Repr

/-- Round-half-to-even to the nearest integer, the tie-breaking rule of
Python's builtin `round`. -/
def roundHalfEven (q : ℚ) : ℤ :=
  if q - ⌊q⌋ < 1/2 then ⌊q⌋
  else if 1/2 < q - ⌊q⌋ then ⌊q⌋ + 1
  else if ⌊q⌋ % 2 = 0 then ⌊q⌋ else ⌊q⌋ + 1

/-- Model of Python `round(x, 4)` at src/main.py:191. -/
def round4 (q : ℚ) : ℚ := (roundHalfEven (q * 10000) : ℚ) / 10000

/-- The `score` closure of `match_top`, src/main.py:183-191.  `user_prefs` is
the already-lowercased preference list built at line 179; `internSkills` is the
raw `skills` list of the internship document.  Python's `set(...)` on a list of
strings is `List.toFinset`; `len` of it is `Finset.card`. -/
def score (user_prefs : List String) (internSkills : List String) : ℚ :=
  let skills := internSkills.map pyLower
  if skills.isEmpty then 0
  else
    let overlap : ℕ := (skills.toFinset ∩ user_prefs.toFinset).card
    let pref_cov : ℚ :=
      if user_prefs.isEmpty then 0
      else (overlap : ℚ) / ((max 1 user_prefs.toFinset.card : ℕ) : ℚ)
    let skill_cov : ℚ := (overlap : ℚ) / ((max 1 skills.toFinset.card : ℕ) : ℚ)
    round4 (0.6 * pref_cov + 0.4 * skill_cov)

/-- The sort relation of `scored.sort(key=lambda x: x.score, reverse=True)`
(src/main.py:205): non-strictly descending by score. -/
def scoreGE (a b : ℚ × Internship) : Prop := b.1 ≤ a.1

instance : DecidableRel scoreGE := fun a b => inferInstanceAs (Decidable (b.1 ≤ a.1))

instance : IsTotal (ℚ × Internship) scoreGE := ⟨fun a b => le_total b.1 a.1⟩

instance : IsTrans (ℚ × Internship) scoreGE := ⟨fun _ _ _ h1 h2 => le_trans h2 h1⟩

/-- Model of the Python slice `l[:n]` for an arbitrary integer `n`, as used in
`[: req.limit]` at src/main.py:206: a non-negative `n` takes the first `n`
elements, and a negative `n` drops the last `|n|` elements. -/
def pySlice {α : Type} (n : ℤ) (l : List α) : List α :=
  if 0 ≤ n then l.take n.toNat else l.take (l.length - (-n).toNat)

/-- The `scored` list comprehension of src/main.py:193-203: every catalog entry
paired with its score, in catalog order.  The endpoint copies the display
fields of each document into the result view unchanged, so the view is the
record itself. -/
def scoredList (preferences : List String) (internships : List Internship) :
    List (ℚ × Internship) :=
  internships.map (fun i => (score (preferences.map pyLower) i.skills, i))

/-- The ranking logic of the `match_top` endpoint, src/main.py:171-207, as a
pure function of the stored preference list, the catalog, and `req.limit`
(`limit: int = 5` in `MatchRequest`, src/schemas.py:20-22): lowercase the
preferences (line 179), score every internship (193-203), sort stably by score
descending (205), keep scores `> 0` and apply the Python slice `[: limit]`
(206).  Python `list.sort` is stable; the structural insertion sort with the
non-strict descending relation `scoreGE` computes exactly that stable sort. -/
def match_top (preferences : List String) (internships : List Internship)
    (limit : ℤ) : List (ℚ × Internship) :=
  let sorted := List.insertionSort scoreGE (scoredList preferences internships)
  pySlice limit (sorted.filter (fun s => decide (0 < s.1)))

/-- Modelled from the spec, section 4.1 steps 3-6: the scoring formula stated
directly over the normalized preference set `P` and skill set `S`, used only to
compare the code's `score` against the spec's words (claim C1). -/
def score_spec (P S : Finset String) : ℚ :=
  round4 (0.6 * (if P = ∅ then 0 else ((S ∩ P).card : ℚ) / ((max 1 P.card : ℕ) : ℚ))
    + 0.4 * (((S ∩ P).card : ℚ) / ((max 1 S.card : ℕ) : ℚ)))

/-- Example internship used in the counterexamples for the limit claims. -/
def internA : Internship :=
  { title := "Data Analyst Intern", company := "Insight Labs", skills := ["python"] }

/-- Second example internship used in the counterexamples for the limit
claims. -/
def internB : Internship :=
  { title := "Backend Developer Intern", company := "CloudStack", skills := ["python"] }

/-- Token consisting of `k` letters `a`; the tokens of the large preference
list exhibiting score underflow (claim C10). -/
def aTok (k : ℕ) : String := String.mk (List.replicate k (Char.ofNat 97))

/-- Token consisting of `k+1` letters `b`; the non-shared tokens of the large
skill list exhibiting score underflow (claim C10). -/
def bTok (k : ℕ) : String := String.mk (List.replicate (k + 1) (Char.ofNat 98))

/-- A preference list of 40000 distinct lowercase tokens. -/
def bigPrefs : List String := (List.range 40000).map aTok

/-- A skill list of 40000 distinct lowercase tokens sharing exactly the token
`aTok 0` with `bigPrefs`. -/
def bigSkills : List String := aTok 0 :: (List.range 39999).map bTok

/-- Internship whose skill set overlaps `bigPrefs` in exactly one token yet
whose score rounds to 0 (claim C10). -/
def bigIntern : Internship :=
  { title := "Needle", company := "Haystack", skills := bigSkills }

/-! ### Helper lemmas about rounding -/

theorem roundHalfEven_intCast (z : ℤ) : roundHalfEven (z : ℚ) = z := by
  unfold roundHalfEven
  rw [Int.floor_intCast]
  simp

theorem round4_zero : round4 0 = 0 := by
  unfold round4
  norm_num [roundHalfEven]

theorem roundHalfEven_nonneg {q : ℚ} (h : 0 ≤ q) : 0 ≤ roundHalfEven q := by
  unfold roundHalfEven
  have hf : (0 : ℤ) ≤ ⌊q⌋ := Int.floor_nonneg.mpr h
  split_ifs <;> omega

theorem roundHalfEven_le_of_le {q : ℚ} {n : ℤ} (h : q ≤ (n : ℚ)) :
    roundHalfEven q ≤ n := by
  have hf : ⌊q⌋ ≤ n := by
    have := Int.floor_le_floor h
    simpa using this
  unfold roundHalfEven
  rcases lt_or_eq_of_le hf with hlt | heq
  · split_ifs <;> omega
  · have hq : q - (⌊q⌋ : ℚ) ≤ 0 := by
      rw [heq]
      linarith
    have : q - (⌊q⌋ : ℚ) < 1/2 := lt_of_le_of_lt hq (by norm_num)
    rw [if_pos this]
    exact hf

theorem round4_nonneg {q : ℚ} (h : 0 ≤ q) : 0 ≤ round4 q := by
  unfold round4
  have : (0 : ℤ) ≤ roundHalfEven (q * 10000) := roundHalfEven_nonneg (by positivity)
  positivity

theorem round4_le_one {q : ℚ} (h : q ≤ 1) : round4 q ≤ 1 := by
  unfold round4
  have h1 : q * 10000 ≤ ((10000 : ℤ) : ℚ) := by push_cast; linarith
  have h2 : roundHalfEven (q * 10000) ≤ 10000 := roundHalfEven_le_of_le h1
  rw [div_le_one (by norm_num)]
  exact_mod_cast h2

theorem round4_idem (q : ℚ) : round4 (round4 q) = round4 q := by
  unfold round4
  rw [div_mul_cancel₀ _ (by norm_num : (10000 : ℚ) ≠ 0), roundHalfEven_intCast]

/-! ### Helper lemmas about `score` -/

theorem pySlice_nil {α : Type} (n : ℤ) : pySlice n ([] : List α) = [] := by
  simp [pySlice]

theorem score_prefs_nil (sk : List String) : score [] sk = 0 := by
  simp [score, round4_zero]

/-- The scoring closure only looks at the deduplicated preference set and the
deduplicated lowercased skill set. -/
theorem score_congr {up1 up2 sk1 sk2 : List String}
    (hP : up1.toFinset = up2.toFinset)
    (hS : (sk1.map pyLower).toFinset = (sk2.map pyLower).toFinset) :
    score up1 sk1 = score up2 sk2 := by
  have hiffS : sk1.map pyLower = [] ↔ sk2.map pyLower = [] := by
    rw [← List.toFinset_eq_empty_iff, ← List.toFinset_eq_empty_iff, hS]
  have hemp : (sk1.map pyLower).isEmpty = (sk2.map pyLower).isEmpty := by
    rcases h1 : sk1.map pyLower with _ | ⟨a, t⟩ <;>
      rcases h2 : sk2.map pyLower with _ | ⟨b, u⟩ <;> simp_all
  have hiffP : up1 = [] ↔ up2 = [] := by
    rw [← List.toFinset_eq_empty_iff, ← List.toFinset_eq_empty_iff, hP]
  have hup : up1.isEmpty = up2.isEmpty := by
    rcases h1 : up1 with _ | ⟨a, t⟩ <;> rcases h2 : up2 with _ | ⟨b, u⟩ <;> simp_all
  simp only [score]
  rw [hP, hS, hemp, hup]

theorem score_python_python : score ["python"] ["python"] = 1 := by
  have h1 : (["python"].map pyLower) = ["python"] := by decide
  have h2 : (((["python"] : List String)).toFinset
      ∩ ((["python"] : List String)).toFinset).card = 1 := by decide
  have h3 : ((["python"] : List String)).toFinset.card = 1 := by decide
  simp only [score, h1, h2, h3, List.isEmpty_cons]
  norm_num [round4, roundHalfEven]

/-- Concrete evaluation of the ranking at a negative limit: the Python slice
`[:-1]` keeps all but the last of the two positive-score entries. -/
theorem match_top_at_neg_one :
    match_top ["python"] [internA, internB] (-1) = [(1, internA)] := by
  have hpl : pyLower "python" = "python" := by decide
  simp only [match_top, scoredList, internA, internB, List.map, hpl]
  norm_num [score_python_python, scoreGE, pySlice, List.insertionSort,
    List.orderedInsert, List.filter]

/-- The result of `match_top` is a sublist of the sorted positive-score list. -/
theorem match_top_sublist (P : List String) (cat : List Internship) (lim : ℤ) :
    (match_top P cat lim).Sublist
      ((List.insertionSort scoreGE (scoredList P cat)).filter
        (fun s => decide (0 < s.1))) := by
  simp only [match_top, pySlice]
  split <;> exact List.take_sublist _ _

/-! ### Claim theorems -/

/-- C1: for every preference set and every internship whose deduplicated
lowercase skill set is non-empty, the code's score agrees with the spec's
formula `round(0.6 * pref_coverage + 0.4 * skill_coverage, 4)` over the
normalized sets; in particular, for preferences `{python, sql}` and skills
`{python, sql, pandas, analytics}` the score is `0.8`. -/
theorem C1_score_formula :
    (∀ (user_prefs skills : List String), (skills.map pyLower).toFinset ≠ ∅ →
      score user_prefs skills = score_spec user_prefs.toFinset (skills.map pyLower).toFinset) ∧
    score ["python", "sql"] ["python", "sql", "pandas", "analytics"] = 0.8 := by
  constructor
  · intro up sk h
    have hne : sk.map pyLower ≠ [] := by
      intro e
      exact h (by simp [e])
    have hemp : (sk.map pyLower).isEmpty = false := by
      rcases he : sk.map pyLower with _ | ⟨a, t⟩
      · exact absurd he hne
      · rfl
    by_cases hup : up = []
    · subst hup
      simp [score, score_spec, hemp]
    · have h1 : up.isEmpty = false := by
        rcases hu : up with _ | ⟨a, t⟩
        · exact absurd hu hup
        · rfl
      have h2 : up.toFinset ≠ ∅ := by
        simpa [List.toFinset_eq_empty_iff] using hup
      simp [score, score_spec, hemp, h1, h2]
  · have h1 : (["python", "sql", "pandas", "analytics"].map pyLower)
        = ["python", "sql", "pandas", "analytics"] := by decide
    have h2 : (((["python", "sql", "pandas", "analytics"] : List String)).toFinset
        ∩ ((["python", "sql"] : List String)).toFinset).card = 2 := by decide
    have h3 : ((["python", "sql"] : List String)).toFinset.card = 2 := by decide
    have h4 : ((["python", "sql", "pandas", "analytics"] : List String)).toFinset.card = 4 := by
      decide
    simp only [score, h1, h2, h3, h4, List.isEmpty_cons]
    norm_num [round4, roundHalfEven]

/-- C1 witness: the general part of C1 applied to the concrete preference list
`[python]` and skill list `[python]`. -/
theorem C1_score_formula_witness :
    ((((["python"] : List String)).map pyLower).toFinset ≠ ∅) ∧
    score ["python"] ["python"]
      = score_spec ((["python"] : List String)).toFinset
          ((((["python"] : List String)).map pyLower).toFinset) :=
  ⟨by decide, C1_score_formula.1 ["python"] ["python"] (by decide)⟩

/-- C3: an empty preference list makes every score 0, so `match_top` returns
the empty list for every catalog and every limit. -/
theorem C3_empty_prefs_empty_result :
    ∀ (internships : List Internship) (limit : ℤ), match_top [] internships limit = [] := by
  intro cat lim
  have hall : ∀ x ∈ List.insertionSort scoreGE (scoredList [] cat), x.1 = 0 := by
    intro x hx
    have hx2 : x ∈ scoredList [] cat := ((List.perm_insertionSort scoreGE _).mem_iff).mp hx
    unfold scoredList at hx2
    rcases List.mem_map.mp hx2 with ⟨i, _, rfl⟩
    simpa using score_prefs_nil i.skills
  have hfil : (List.insertionSort scoreGE (scoredList [] cat)).filter
      (fun s => decide (0 < s.1)) = [] := by
    rw [List.filter_eq_nil_iff]
    intro x hx
    simp [hall x hx]
  simp only [match_top]
  rw [hfil, pySlice_nil]

/-- C4: an internship whose skill list normalizes to the empty set (which
happens exactly when the stored list is empty) scores exactly 0, for every
preference list. -/
theorem C4_empty_skills_zero :
    ∀ (user_prefs skills : List String), (skills.map pyLower).toFinset = ∅ →
      score user_prefs skills = 0 := by
  intro up sk h
  have hnil : sk.map pyLower = [] := List.toFinset_eq_empty_iff _ |>.mp h
  simp [score, hnil]

/-- C4 witness: the claim applied to a concrete preference list and the empty
skill list. -/
theorem C4_empty_skills_zero_witness :
    ((([] : List String)).map pyLower).toFinset = ∅ ∧ score ["python"] [] = 0 :=
  ⟨by decide, C4_empty_skills_zero ["python"] [] (by decide)⟩

/-- C2 counterexample: at `limit = -1` with two positive-score internships,
`match_top` returns a non-empty list (the Python slice `[:-1]` only drops the
last entry), so "for every limit <= 0 the result is empty" is false on the
code. -/
theorem C2_counterexample : match_top ["python"] [internA, internB] (-1) ≠ [] := by
  rw [match_top_at_neg_one]
  simp

/-- C2 amended: the empty result is guaranteed at `limit = 0` (the code's
`[: req.limit]` slices negative limits Python-style instead of clamping them,
so a negative limit can return a non-empty list). -/
theorem C2_amended_zero_limit :
    ∀ (P : List String) (cat : List Internship), match_top P cat 0 = [] := by
  intro P cat
  simp [match_top, pySlice]

/-- C5: the returned sequence is sorted by score in non-strict descending
order, and for every score value the returned entries carrying it form a
sublist (hence appear in the original catalog order) of the scored catalog. -/
theorem C5_sorted_and_stable :
    ∀ (P : List String) (cat : List Internship) (lim : ℤ),
      (match_top P cat lim).Pairwise scoreGE ∧
      ∀ q : ℚ, ((match_top P cat lim).filter (fun x => decide (x.1 = q))).Sublist
          ((scoredList P cat).filter (fun x => decide (x.1 = q))) := by
  intro P cat lim
  have hsub := match_top_sublist P cat lim
  have hsorted : (List.insertionSort scoreGE (scoredList P cat)).Pairwise scoreGE :=
    List.sorted_insertionSort scoreGE (scoredList P cat)
  constructor
  · exact List.Pairwise.sublist (hsub.trans (List.filter_sublist _)) hsorted
  · intro q
    have hpair : ((scoredList P cat).filter (fun x => decide (x.1 = q))).Pairwise scoreGE := by
      apply List.pairwise_of_forall_mem_list
      intro a ha b hb
      have ha2 : a.1 = q :=
        of_decide_eq_true (List.of_mem_filter (p := fun x : ℚ × Internship => decide (x.1 = q)) ha)
      have hb2 : b.1 = q :=
        of_decide_eq_true (List.of_mem_filter (p := fun x : ℚ × Internship => decide (x.1 = q)) hb)
      unfold scoreGE
      rw [ha2, hb2]
    have step1 : ((scoredList P cat).filter (fun x => decide (x.1 = q))).Sublist
        (List.insertionSort scoreGE (scoredList P cat)) :=
      List.sublist_insertionSort hpair (List.filter_sublist _)
    have step2 : ((scoredList P cat).filter (fun x => decide (x.1 = q))).Sublist
        ((List.insertionSort scoreGE (scoredList P cat)).filter
            (fun x => decide (x.1 = q))) := by
      have h3 := step1.filter (fun x => decide (x.1 = q))
      rwa [List.filter_eq_self.mpr
        (fun a ha => List.of_mem_filter (p := fun x : ℚ × Internship => decide (x.1 = q)) ha)] at h3
    have hperm : ((List.insertionSort scoreGE (scoredList P cat)).filter
          (fun x => decide (x.1 = q))).Perm
        ((scoredList P cat).filter (fun x => decide (x.1 = q))) :=
      (List.perm_insertionSort scoreGE (scoredList P cat)).filter _
    have heq : (List.insertionSort scoreGE (scoredList P cat)).filter
          (fun x => decide (x.1 = q))
        = (scoredList P cat).filter (fun x => decide (x.1 = q)) :=
      (step2.eq_of_length hperm.length_eq.symm).symm
    have hA : ((match_top P cat lim).filter (fun x => decide (x.1 = q))).Sublist
        (((List.insertionSort scoreGE (scoredList P cat)).filter
            (fun s => decide (0 < s.1))).filter (fun x => decide (x.1 = q))) :=
      hsub.filter _
    have hB : (((List.insertionSort scoreGE (scoredList P cat)).filter
          (fun s => decide (0 < s.1))).filter (fun x => decide (x.1 = q))).Sublist
        ((List.insertionSort scoreGE (scoredList P cat)).filter
            (fun x => decide (x.1 = q))) :=
      (List.filter_sublist _).filter _
    exact heq ▸ (hA.trans hB)

/-- C6 counterexample: at `limit = -1` the returned sequence has length 1,
which is not `<= limit`, so the unrestricted length bound is false on the
code. -/
theorem C6_counterexample :
    ¬ (((match_top ["python"] [internA, internB] (-1)).length : ℤ) ≤ -1) := by
  rw [match_top_at_neg_one]
  norm_num

/-- C6 amended: the length bound `length <= limit` holds for every
`limit >= 0`; for every limit the length is at most the catalog size and every
returned score is strictly positive. -/
theorem C6_amended_bounds :
    ∀ (P : List String) (cat : List Internship) (lim : ℤ),
      (0 ≤ lim → ((match_top P cat lim).length : ℤ) ≤ lim) ∧
      (match_top P cat lim).length ≤ cat.length ∧
      ∀ x ∈ match_top P cat lim, 0 < x.1 := by
  intro P cat lim
  have hsub := match_top_sublist P cat lim
  refine ⟨?_, ?_, ?_⟩
  · intro hlim
    have h1 : (match_top P cat lim).length ≤ lim.toNat := by
      simp only [match_top, pySlice, if_pos hlim]
      rw [List.length_take]
      exact min_le_left _ _
    calc ((match_top P cat lim).length : ℤ) ≤ (lim.toNat : ℤ) := by exact_mod_cast h1
      _ = lim := Int.toNat_of_nonneg hlim
  · have h1 := hsub.length_le
    have h2 := (List.filter_sublist (p := fun s : ℚ × Internship => decide (0 < s.1))
      (List.insertionSort scoreGE (scoredList P cat))).length_le
    rw [List.length_insertionSort] at h2
    have h3 : (scoredList P cat).length = cat.length := List.length_map _ _
    omega
  · intro x hx
    have hx2 := hsub.subset hx
    exact of_decide_eq_true (List.of_mem_filter (p := fun s : ℚ × Internship => decide (0 < s.1)) hx2)

/-- C6 witness: the amended bound applied at the concrete positive limit 1. -/
theorem C6_amended_bounds_witness :
    (0 : ℤ) ≤ 1 ∧ ((match_top ["python"] [internA, internB] 1).length : ℤ) ≤ 1 :=
  ⟨by norm_num, (C6_amended_bounds ["python"] [internA, internB] 1).1 (by norm_num)⟩

/-- Equal deduplicated token sets stay equal after mapping a function over the
lists. -/
theorem toFinset_map_congr (f : String → String) {l1 l2 : List String}
    (h : l1.toFinset = l2.toFinset) : (l1.map f).toFinset = (l2.map f).toFinset := by
  have hmem : ∀ a, a ∈ l1 ↔ a ∈ l2 := fun a => by
    rw [← List.mem_toFinset, h, List.mem_toFinset]
  ext x
  simp only [List.mem_toFinset, List.mem_map]
  constructor <;> rintro ⟨a, ha, rfl⟩
  · exact ⟨a, (hmem a).mp ha, rfl⟩
  · exact ⟨a, (hmem a).mpr ha, rfl⟩

/-- C7: the scoring of a raw preference list and a raw skill list (both are
lowercased on the way into the arithmetic) depends only on the lowercased
deduplicated token sets, so it is invariant under reordering, duplication and
case changes of tokens on either side. -/
theorem C7_set_semantics_case_invariance :
    ∀ (P Q S T : List String),
      (P.map pyLower).toFinset = (Q.map pyLower).toFinset →
      (S.map pyLower).toFinset = (T.map pyLower).toFinset →
      score (P.map pyLower) S = score (Q.map pyLower) T := by
  intro P Q S T hP hS
  exact score_congr hP hS

/-- C7 witness: reordering, duplicating and re-casing tokens on both sides
leaves the score unchanged on a concrete input. -/
theorem C7_set_semantics_case_invariance_witness :
    ((["Python", "sql", "python"].map pyLower).toFinset
      = (["sql", "PYTHON"].map pyLower).toFinset) ∧
    ((["ml"].map pyLower).toFinset = (["ML", "ml"].map pyLower).toFinset) ∧
    score (["Python", "sql", "python"].map pyLower) ["ml"]
      = score (["sql", "PYTHON"].map pyLower) ["ML", "ml"] :=
  ⟨by decide, by decide,
    C7_set_semantics_case_invariance ["Python", "sql", "python"] ["sql", "PYTHON"]
      ["ml"] ["ML", "ml"] (by decide) (by decide)⟩

/-- C8: every score lies in the closed interval from 0 to 1 and is a fixed
point of rounding to 4 decimal digits. -/
theorem C8_score_range_and_rounding :
    ∀ (user_prefs skills : List String),
      0 ≤ score user_prefs skills ∧ score user_prefs skills ≤ 1 ∧
      round4 (score user_prefs skills) = score user_prefs skills := by
  intro up sk
  by_cases hemp : (sk.map pyLower).isEmpty = true
  · have h0 : score up sk = 0 := by simp [score, hemp]
    rw [h0]
    exact ⟨le_refl 0, by norm_num, round4_zero⟩
  · have hemp2 : (sk.map pyLower).isEmpty = false := eq_false_of_ne_true hemp
    have hraw : score up sk = round4 (0.6 * (if up.isEmpty = true then 0 else
        ((((sk.map pyLower).toFinset ∩ up.toFinset).card : ℚ)
          / (((max 1 up.toFinset.card : ℕ)) : ℚ)))
      + 0.4 * ((((sk.map pyLower).toFinset ∩ up.toFinset).card : ℚ)
          / (((max 1 (sk.map pyLower).toFinset.card : ℕ)) : ℚ))) := by
      simp [score, hemp2]
    have hA0 : (0 : ℚ) ≤ (if up.isEmpty = true then 0 else
        ((((sk.map pyLower).toFinset ∩ up.toFinset).card : ℚ)
          / (((max 1 up.toFinset.card : ℕ)) : ℚ))) := by
      split_ifs with h
      · norm_num
      · positivity
    have hA1 : (if up.isEmpty = true then (0 : ℚ) else
        ((((sk.map pyLower).toFinset ∩ up.toFinset).card : ℚ)
          / (((max 1 up.toFinset.card : ℕ)) : ℚ))) ≤ 1 := by
      split_ifs with h
      · norm_num
      · have hdpos : (0 : ℕ) < max 1 up.toFinset.card :=
          lt_of_lt_of_le one_pos (le_max_left _ _)
        rw [div_le_one (by exact_mod_cast hdpos)]
        have hcard : ((sk.map pyLower).toFinset ∩ up.toFinset).card ≤ up.toFinset.card :=
          Finset.card_le_card Finset.inter_subset_right
        have hmax : up.toFinset.card ≤ max 1 up.toFinset.card := le_max_right _ _
        exact_mod_cast le_trans hcard hmax
    have hB0 : (0 : ℚ) ≤ (((sk.map pyLower).toFinset ∩ up.toFinset).card : ℚ)
        / (((max 1 (sk.map pyLower).toFinset.card : ℕ)) : ℚ) := by positivity
    have hB1 : ((((sk.map pyLower).toFinset ∩ up.toFinset).card : ℚ)
        / (((max 1 (sk.map pyLower).toFinset.card : ℕ)) : ℚ)) ≤ 1 := by
      have hdpos : (0 : ℕ) < max 1 (sk.map pyLower).toFinset.card :=
        lt_of_lt_of_le one_pos (le_max_left _ _)
      rw [div_le_one (by exact_mod_cast hdpos)]
      have hcard : ((sk.map pyLower).toFinset ∩ up.toFinset).card
          ≤ (sk.map pyLower).toFinset.card :=
        Finset.card_le_card Finset.inter_subset_left
      have hmax : (sk.map pyLower).toFinset.card
          ≤ max 1 (sk.map pyLower).toFinset.card := le_max_right _ _
      exact_mod_cast le_trans hcard hmax
    rw [hraw]
    exact ⟨round4_nonneg (by linarith), round4_le_one (by linarith), round4_idem _⟩

/-- C9: the score is a deterministic function of the pair of token sets: the
embedding is a pure function, and it moreover factors through the preference
set and skill set, with no other dependency. -/
theorem C9_deterministic_in_sets :
    ∀ (P Q S T : List String), P.toFinset = Q.toFinset → S.toFinset = T.toFinset →
      score (P.map pyLower) S = score (Q.map pyLower) T := by
  intro P Q S T hP hS
  exact score_congr (toFinset_map_congr pyLower hP) (toFinset_map_congr pyLower hS)

/-- C9 witness: two evaluations on equal preference and skill sets produce
equal scores on a concrete input. -/
theorem C9_deterministic_in_sets_witness :
    ((["sql", "python"] : List String).toFinset
      = (["python", "sql", "sql"] : List String).toFinset) ∧
    ((["ml"] : List String).toFinset = (["ml"] : List String).toFinset) ∧
    score (["sql", "python"].map pyLower) ["ml"]
      = score (["python", "sql", "sql"].map pyLower) ["ml"] :=
  ⟨by decide, rfl,
    C9_deterministic_in_sets ["sql", "python"] ["python", "sql", "sql"] ["ml"] ["ml"]
      (by decide) rfl⟩

/-! ### The score-underflow construction for claim C10 -/

theorem pyLower_aTok (k : ℕ) : pyLower (aTok k) = aTok k := by
  have h : (Char.ofNat 97).toLower = Char.ofNat 97 := by decide
  simp [pyLower, aTok, List.map_replicate, h]

theorem pyLower_bTok (k : ℕ) : pyLower (bTok k) = bTok k := by
  have h : (Char.ofNat 98).toLower = Char.ofNat 98 := by decide
  simp [pyLower, bTok, List.map_replicate, h]

theorem bigPrefs_map : bigPrefs.map pyLower = bigPrefs := by
  unfold bigPrefs
  rw [List.map_map]
  exact List.map_congr_left (fun a _ => pyLower_aTok a)

theorem bigSkills_map : bigSkills.map pyLower = bigSkills := by
  unfold bigSkills
  simp only [List.map_cons, List.map_map, pyLower_aTok]
  exact congrArg (List.cons (aTok 0)) (List.map_congr_left (fun a _ => pyLower_bTok a))

theorem aTok_inj : Function.Injective aTok := by
  intro k j h
  have h2 := congrArg (fun s => s.data.length) h
  simpa [aTok] using h2

theorem bTok_inj : Function.Injective bTok := by
  intro k j h
  have h2 := congrArg (fun s => s.data.length) h
  simpa [bTok] using h2

theorem bTok_ne_aTok (k j : ℕ) : bTok k ≠ aTok j := by
  intro h
  have hd : List.replicate (k + 1) (Char.ofNat 98) = List.replicate j (Char.ofNat 97) :=
    congrArg String.data h
  have hb : Char.ofNat 98 ∈ List.replicate (k + 1) (Char.ofNat 98) :=
    List.mem_replicate.mpr ⟨Nat.succ_ne_zero k, rfl⟩
  rw [hd] at hb
  have h2 := (List.mem_replicate.mp hb).2
  exact absurd h2 (by decide)

theorem bigPrefs_card : bigPrefs.toFinset.card = 40000 := by
  have hnodup : bigPrefs.Nodup := by
    unfold bigPrefs
    exact List.Nodup.map aTok_inj (List.nodup_range _)
  rw [List.toFinset_card_of_nodup hnodup]
  unfold bigPrefs
  rw [List.length_map, List.length_range]

theorem bigSkills_card : bigSkills.toFinset.card = 40000 := by
  have hnodup : bigSkills.Nodup := by
    unfold bigSkills
    rw [List.nodup_cons]
    refine ⟨?_, List.Nodup.map bTok_inj (List.nodup_range _)⟩
    intro h
    rcases List.mem_map.mp h with ⟨k, _, hk⟩
    exact bTok_ne_aTok k 0 hk
  rw [List.toFinset_card_of_nodup hnodup]
  unfold bigSkills
  rw [List.length_cons, List.length_map, List.length_range]

theorem big_inter : bigSkills.toFinset ∩ bigPrefs.toFinset = {aTok 0} := by
  unfold bigSkills
  rw [List.toFinset_cons]
  have hmem : aTok 0 ∈ bigPrefs.toFinset := by
    rw [List.mem_toFinset]
    unfold bigPrefs
    exact List.mem_map.mpr ⟨0, List.mem_range.mpr (by norm_num), rfl⟩
  rw [Finset.insert_inter_of_mem hmem]
  have hdisj : ((List.range 39999).map bTok).toFinset ∩ bigPrefs.toFinset = ∅ := by
    rw [Finset.eq_empty_iff_forall_not_mem]
    intro x hx
    rcases Finset.mem_inter.mp hx with ⟨hx1, hx2⟩
    rcases List.mem_map.mp (List.mem_toFinset.mp hx1) with ⟨k, _, rfl⟩
    rcases List.mem_map.mp (List.mem_toFinset.mp hx2) with ⟨j, _, hj⟩
    exact bTok_ne_aTok k j hj.symm
  rw [hdisj]
  rfl

theorem score_big : score (bigPrefs.map pyLower) bigSkills = 0 := by
  rw [bigPrefs_map]
  have h1 : (bigSkills.map pyLower).isEmpty = false := by
    rw [bigSkills_map]
    rfl
  have h2 : bigPrefs.isEmpty = false := by
    have hne : bigPrefs ≠ [] := by
      unfold bigPrefs
      simp [List.map_eq_nil_iff, List.range_eq_nil]
    cases h : bigPrefs.isEmpty
    · rfl
    · exact absurd (List.isEmpty_iff.mp h) hne
  have h3 : (bigSkills.map pyLower).toFinset ∩ bigPrefs.toFinset = {aTok 0} := by
    rw [bigSkills_map, big_inter]
  have h4 : (bigSkills.map pyLower).toFinset.card = 40000 := by
    rw [bigSkills_map, bigSkills_card]
  simp only [score, h1, h2, h3, h4, bigPrefs_card, Bool.false_eq_true, if_false,
    Finset.card_singleton]
  norm_num [round4, roundHalfEven]

/-- C10: with 40000 distinct preference tokens and 40000 distinct skill tokens
sharing exactly one token, the overlap is 1 (positive) yet the weighted score
`0.6/40000 + 0.4/40000 = 1/40000` rounds to exactly 0 at 4 decimal digits, so
the internship is excluded from the results: positive overlap does not
guarantee inclusion. -/
theorem C10_positive_overlap_excluded :
    (bigPrefs.map pyLower).toFinset ≠ ∅ ∧
    (bigSkills.map pyLower).toFinset ≠ ∅ ∧
    1 ≤ ((bigSkills.map pyLower).toFinset ∩ (bigPrefs.map pyLower).toFinset).card ∧
    match_top bigPrefs [bigIntern] 5 = [] := by
  refine ⟨?_, ?_, ?_, ?_⟩
  · rw [bigPrefs_map]
    intro h
    have hc := bigPrefs_card
    rw [h] at hc
    simp at hc
  · rw [bigSkills_map]
    intro h
    have hc := bigSkills_card
    rw [h] at hc
    simp at hc
  · rw [bigSkills_map, bigPrefs_map, big_inter]
    simp
  · have hs : score (bigPrefs.map pyLower) bigIntern.skills = 0 := score_big
    simp only [match_top, scoredList, List.map_cons, List.map_nil, hs]
    norm_num [List.insertionSort, List.orderedInsert, pySlice]

end InternMatch
